import Mathlib

/-!
Shallow embedding of the CHDT BPM classifier (src/bpm_classifier.py and
src/spotify_classifier.py).

The tempo estimator's numeric post-processing (`BPMClassifierApp.analyze_bpm`,
lines 418-466) and the run controller (`run_classifier` in both files) are
translated into executable Lean definitions.  The calls into external
libraries (librosa tempo detection, yt-dlp download, the Spotify web API) are
modelled as oracle parameters: the repository treats them as black boxes that
either return a value or fail.

Python floats are modelled as rationals; the two `while` loops of the octave
normalization are modelled with explicit fuel (an `Option` result, `none`
meaning the loop has not terminated within the given fuel), because for
non-positive inputs the source loops genuinely diverge.
-/

/-- Configuration constant from both source files: `BUCKET_SIZE = 20`. -/
def BUCKET_SIZE : Nat := 20

/-- Configuration constant from both source files: `BPM_SLOW_MAX = 100`. -/
def BPM_SLOW_MAX : ℚ := 100

/-- Configuration constant from both source files: `BPM_MED_MAX = 140`. -/
def BPM_MED_MAX : ℚ := 140

/-- Python 3 `round` to the nearest integer: round-half-to-even on the exact
rational value. -/
def roundHalfEven (x : ℚ) : ℤ :=
  if x - ⌊x⌋ < 1 / 2 then ⌊x⌋
  else if 1 / 2 < x - ⌊x⌋ then ⌊x⌋ + 1
  else if ⌊x⌋ % 2 = 0 then ⌊x⌋ else ⌊x⌋ + 1

/-- Python `round(x, 1)`: round to one decimal place, half to even. -/
def round1 (x : ℚ) : ℚ := (roundHalfEven (x * 10) : ℚ) / 10

/-- The first octave-correction loop of `analyze_bpm`
(`while bpm > 210: bpm /= 2`), with explicit fuel. -/
def halveLoop : Nat → ℚ → Option ℚ
  | 0, b => if 210 < b then none else some b
  | n + 1, b => if 210 < b then halveLoop n (b / 2) else some b

/-- The second octave-correction loop of `analyze_bpm`
(`while bpm < 70: bpm *= 2`), with explicit fuel. -/
def doubleLoop : Nat → ℚ → Option ℚ
  | 0, b => if b < 70 then none else some b
  | n + 1, b => if b < 70 then doubleLoop n (b * 2) else some b

/-- One full octave normalization of a candidate: the halving loop followed by
the doubling loop (`analyze_bpm`, lines 422-425). -/
def normalizeFuel (fuel : Nat) (b : ℚ) : Option ℚ :=
  (halveLoop fuel b).bind (doubleLoop fuel)

/-- The list comprehension normalizing every candidate
(`corrected = []; for bpm in candidates: ... corrected.append(bpm)`),
propagating divergence of any single normalization. -/
def correctList (fuel : Nat) : List ℚ → Option (List ℚ)
  | [] => some []
  | b :: rest =>
    match normalizeFuel fuel b, correctList fuel rest with
    | some r, some rs => some (r :: rs)
    | _, _ => none

/-- `numpy.median`: sort ascending; middle element for odd length, mean of the
two middle elements for even length.  (The source never calls it on an empty
list; 0 is a junk value for that case.) -/
def median (l : List ℚ) : ℚ :=
  let s := List.insertionSort (· ≤ ·) l
  let n := l.length
  if n = 0 then 0
  else if n % 2 = 1 then s.getD (n / 2) 0
  else (s.getD (n / 2 - 1) 0 + s.getD (n / 2) 0) / 2

/-- The numeric tail of `BPMClassifierApp.analyze_bpm` (lines 418-466), from
the point where the per-segment tempo candidates are in hand.

`candidates` is the (post-fallback, hence nonempty in the source) list of raw
per-segment tempi from librosa; `rerun` models re-running the per-segment
librosa analysis with a given `start_bpm` bias, returning the raw
`double_candidates` list.  The function normalizes the candidates, takes the
median, and applies the half-tempo disambiguation pass exactly as in the
source: if the provisional median lies in [95, 120] it re-runs the segment
analysis biased at `median_bpm * 2`, normalizes those candidates, and replaces
the provisional median with their median when that lies in [130, 200].  The
result is rounded to one decimal. -/
def analyzeFrom (fuel : Nat) (candidates : List ℚ) (rerun : ℚ → List ℚ) :
    Option ℚ :=
  match correctList fuel candidates with
  | none => none
  | some corrected =>
    let median_bpm := median corrected
    if 95 ≤ median_bpm ∧ median_bpm ≤ 120 then
      let double_candidates := rerun (median_bpm * 2)
      if double_candidates = [] then some (round1 median_bpm)
      else
        match correctList fuel double_candidates with
        | none => none
        | some dc =>
          let double_median := median dc
          if 130 ≤ double_median ∧ double_median ≤ 200 then
            some (round1 double_median)
          else some (round1 median_bpm)
    else some (round1 median_bpm)

/-- Python `str.strip()`: remove leading and trailing whitespace. -/
def pyStrip (s : String) : String :=
  ⟨((s.data.dropWhile Char.isWhitespace).reverse.dropWhile
      Char.isWhitespace).reverse⟩

/-- One input row of `board.csv`, as read by both run controllers:
`排名` (rank), `bv`, `曲名` (title), `P主` (uploader), `歌姬` (singer). -/
structure Row where
  rank : String
  bv : String
  title : String
  artist : String
  singer : String
deriving DecidableEq, Repr

/-- One entry appended to a bucket by `BPMClassifierApp.run_classifier`:
`[rank, bv, song_name, artist, singer, bpm]`. -/
structure Entry where
  rank : String
  bv : String
  title : String
  artist : String
  singer : String
  bpm : ℚ
deriving DecidableEq, Repr

/-- The first matched Spotify track (id, name, first artist name — with the
source's fallback to `未知` when the artist list is empty folded in). -/
structure Track where
  id : String
  name : String
  artistName : String
deriving DecidableEq, Repr

/-- One entry appended to a bucket by `SpotifyClassifierApp.run_classifier`:
`[rank, bv, raw_title, artist, singer, bpm, spotify_info]`. -/
structure SpotEntry where
  rank : String
  bv : String
  title : String
  artist : String
  singer : String
  bpm : ℚ
  spotifyInfo : String
deriving DecidableEq, Repr

/-- The three-bucket state `self.buckets` (BLUE / GREEN / RED song lists). -/
structure Buckets (ε : Type) where
  blue : List ε
  green : List ε
  red : List ε
deriving DecidableEq, Repr

/-- Bucket band names, `BLUE`/`GREEN`/`RED` in the source. -/
inductive Color where
  | BLUE
  | GREEN
  | RED
deriving DecidableEq, Repr

/-- `self.buckets[color]["songs"]`. -/
def bucketGet (st : Buckets ε) : Color → List ε
  | Color.BLUE => st.blue
  | Color.GREEN => st.green
  | Color.RED => st.red

/-- `bucket["songs"].append(...)` on the named bucket. -/
def appendEntry (st : Buckets ε) (c : Color) (e : ε) : Buckets ε :=
  match c with
  | Color.BLUE => ⟨st.blue ++ [e], st.green, st.red⟩
  | Color.GREEN => ⟨st.blue, st.green ++ [e], st.red⟩
  | Color.RED => ⟨st.blue, st.green, st.red ++ [e]⟩

/-- `all_buckets_full`: every bucket's song count has reached its `max`
(the shared capacity `cap`, `BUCKET_SIZE` in the source). -/
def allBucketsFull (cap : Nat) (st : Buckets ε) : Prop :=
  cap ≤ st.blue.length ∧ cap ≤ st.green.length ∧ cap ≤ st.red.length

instance (cap : Nat) (st : Buckets ε) : Decidable (allBucketsFull cap st) := by
  unfold allBucketsFull
  exact inferInstance

/-- Observable calls made by one run: acquisition (`download_audio` /
Spotify `search` + `audio_features`), analysis (`analyze_bpm`), and bucket
appends. -/
inductive Event where
  | download : Row → Event
  | analyze : Row → Event
  | search : Row → Event
  | features : Row → Event
  | append : Color → Row → Event
deriving DecidableEq, Repr

namespace BPM

/-- `BPMClassifierApp.classify_bpm` (src/bpm_classifier.py lines 278-284). -/
def classify_bpm (bpm : ℚ) : Color :=
  if bpm < BPM_SLOW_MAX then Color.BLUE
  else if bpm ≤ BPM_MED_MAX then Color.GREEN
  else Color.RED

/-- The entry `[rank, bv, song_name, artist, singer, bpm]` built at
src/bpm_classifier.py line 561 (`bv` is the stripped identifier). -/
def mkEntry (r : Row) (bpm : ℚ) : Entry :=
  ⟨r.rank, pyStrip r.bv, r.title, r.artist, r.singer, bpm⟩

/-- The per-descriptor loop of `BPMClassifierApp.run_classifier`
(src/bpm_classifier.py lines 509-593), with the download and the BPM analysis
as oracle parameters (both return `none` on failure, which the source catches
and turns into `continue`).  For each row, in source order: strip the `bv`
identifier and skip the row when it is empty; halt when all three buckets are
full; download; analyze; classify; skip when the target bucket is full;
otherwise append.  Returns the final bucket state and the trace of external
calls. -/
def runFrom {A : Type} (cap : Nat) (download : Row → Option A)
    (analyze : A → Option ℚ) : List Row → Buckets Entry →
    Buckets Entry × List Event
  | [], st => (st, [])
  | r :: rest, st =>
    if pyStrip r.bv = "" then runFrom cap download analyze rest st
    else if allBucketsFull cap st then (st, [])
    else
      match download r with
      | none =>
        ((runFrom cap download analyze rest st).1,
          Event.download r :: (runFrom cap download analyze rest st).2)
      | some audio =>
        match analyze audio with
        | none =>
          ((runFrom cap download analyze rest st).1,
            Event.download r :: Event.analyze r ::
              (runFrom cap download analyze rest st).2)
        | some bpm =>
          if cap ≤ (bucketGet st (classify_bpm bpm)).length then
            ((runFrom cap download analyze rest st).1,
              Event.download r :: Event.analyze r ::
                (runFrom cap download analyze rest st).2)
          else
            ((runFrom cap download analyze rest
                (appendEntry st (classify_bpm bpm) (mkEntry r bpm))).1,
              Event.download r :: Event.analyze r ::
                Event.append (classify_bpm bpm) r ::
                (runFrom cap download analyze rest
                  (appendEntry st (classify_bpm bpm) (mkEntry r bpm))).2)

end BPM

namespace Spotify

/-- `SpotifyClassifierApp.classify_bpm` (src/spotify_classifier.py
lines 321-327). -/
def classify_bpm (bpm : ℚ) : Color :=
  if bpm < BPM_SLOW_MAX then Color.BLUE
  else if bpm ≤ BPM_MED_MAX then Color.GREEN
  else Color.RED

/-- The entry `[rank, bv, raw_title, artist, singer, bpm, spotify_info]`
built at src/spotify_classifier.py lines 461-464. -/
def mkEntry (r : Row) (t : Track) (bpm : ℚ) : SpotEntry :=
  ⟨r.rank, pyStrip r.bv, pyStrip r.title, r.artist, r.singer, bpm,
    t.name ++ " - " ++ t.artistName⟩

/-- The per-descriptor loop of `SpotifyClassifierApp.run_classifier`
(src/spotify_classifier.py lines 390-471), with the title cleaning
(`clean_title`), the Spotify search and the audio-features lookup as oracle
parameters.  For each row, in source order: halt when all three buckets are
full; strip the title and skip the row when it is empty; search for the
cleaned title (`none` models an empty `items` list); fetch audio features
(`none` models a missing features payload); round the tempo to one decimal;
classify; skip when the target bucket is full; otherwise append. -/
def runSpot (cap : Nat) (clean : String → String)
    (search : String → Option Track) (features : Track → Option ℚ) :
    List Row → Buckets SpotEntry → Buckets SpotEntry × List Event
  | [], st => (st, [])
  | r :: rest, st =>
    if allBucketsFull cap st then (st, [])
    else if pyStrip r.title = "" then runSpot cap clean search features rest st
    else
      match search (clean (pyStrip r.title)) with
      | none =>
        ((runSpot cap clean search features rest st).1,
          Event.search r :: (runSpot cap clean search features rest st).2)
      | some track =>
        match features track with
        | none =>
          ((runSpot cap clean search features rest st).1,
            Event.search r :: Event.features r ::
              (runSpot cap clean search features rest st).2)
        | some tempo =>
          if cap ≤ (bucketGet st (classify_bpm (round1 tempo))).length then
            ((runSpot cap clean search features rest st).1,
              Event.search r :: Event.features r ::
                (runSpot cap clean search features rest st).2)
          else
            ((runSpot cap clean search features rest
                (appendEntry st (classify_bpm (round1 tempo))
                  (mkEntry r track (round1 tempo)))).1,
              Event.search r :: Event.features r ::
                Event.append (classify_bpm (round1 tempo)) r ::
                (runSpot cap clean search features rest
                  (appendEntry st (classify_bpm (round1 tempo))
                    (mkEntry r track (round1 tempo)))).2)

end Spotify

/-! ### Facts about the octave-normalization loops -/

lemma halveLoop_of_le {b : ℚ} (h : b ≤ 210) (n : Nat) :
    halveLoop n b = some b := by
  cases n <;> simp [halveLoop, not_lt.2 h]

lemma doubleLoop_of_ge {b : ℚ} (h : 70 ≤ b) (n : Nat) :
    doubleLoop n b = some b := by
  cases n <;> simp [doubleLoop, not_lt.2 h]

lemma halveLoop_le : ∀ {n : Nat} {b r : ℚ}, halveLoop n b = some r → r ≤ 210 := by
  intro n
  induction n with
  | zero =>
    intro b r h
    simp only [halveLoop] at h
    by_cases h1 : 210 < b
    · rw [if_pos h1] at h
      exact absurd h (by simp)
    · rw [if_neg h1] at h
      obtain rfl := Option.some_inj.mp h
      exact not_lt.1 h1
  | succ n ih =>
    intro b r h
    simp only [halveLoop] at h
    by_cases h1 : 210 < b
    · rw [if_pos h1] at h
      exact ih h
    · rw [if_neg h1] at h
      obtain rfl := Option.some_inj.mp h
      exact not_lt.1 h1

lemma halveLoop_pos : ∀ {n : Nat} {b r : ℚ}, 0 < b → halveLoop n b = some r →
    0 < r := by
  intro n
  induction n with
  | zero =>
    intro b r hb h
    simp only [halveLoop] at h
    by_cases h1 : 210 < b
    · rw [if_pos h1] at h
      exact absurd h (by simp)
    · rw [if_neg h1] at h
      obtain rfl := Option.some_inj.mp h
      exact hb
  | succ n ih =>
    intro b r hb h
    simp only [halveLoop] at h
    by_cases h1 : 210 < b
    · rw [if_pos h1] at h
      exact ih (by linarith) h
    · rw [if_neg h1] at h
      obtain rfl := Option.some_inj.mp h
      exact hb

lemma doubleLoop_ge : ∀ {n : Nat} {b r : ℚ}, doubleLoop n b = some r →
    70 ≤ r := by
  intro n
  induction n with
  | zero =>
    intro b r h
    simp only [doubleLoop] at h
    by_cases h1 : b < 70
    · rw [if_pos h1] at h
      exact absurd h (by simp)
    · rw [if_neg h1] at h
      obtain rfl := Option.some_inj.mp h
      exact not_lt.1 h1
  | succ n ih =>
    intro b r h
    simp only [doubleLoop] at h
    by_cases h1 : b < 70
    · rw [if_pos h1] at h
      exact ih h
    · rw [if_neg h1] at h
      obtain rfl := Option.some_inj.mp h
      exact not_lt.1 h1

lemma doubleLoop_le : ∀ {n : Nat} {b r : ℚ}, b ≤ 210 → doubleLoop n b = some r →
    r ≤ 210 := by
  intro n
  induction n with
  | zero =>
    intro b r hb h
    simp only [doubleLoop] at h
    by_cases h1 : b < 70
    · rw [if_pos h1] at h
      exact absurd h (by simp)
    · rw [if_neg h1] at h
      obtain rfl := Option.some_inj.mp h
      exact hb
  | succ n ih =>
    intro b r hb h
    simp only [doubleLoop] at h
    by_cases h1 : b < 70
    · rw [if_pos h1] at h
      exact ih (by linarith) h
    · rw [if_neg h1] at h
      obtain rfl := Option.some_inj.mp h
      exact hb

/-- A successful octave normalization always lands in `[70, 210]`. -/
lemma normalizeFuel_range {fuel : Nat} {b r : ℚ}
    (h : normalizeFuel fuel b = some r) : 70 ≤ r ∧ r ≤ 210 := by
  unfold normalizeFuel at h
  cases hm : halveLoop fuel b with
  | none =>
    rw [hm] at h
    exact absurd h (by simp)
  | some mid =>
    rw [hm] at h
    simp only [Option.some_bind] at h
    exact ⟨doubleLoop_ge h, doubleLoop_le (halveLoop_le hm) h⟩

/-- A value already in `[70, 210]` is a fixed point of the normalization,
whatever the fuel. -/
lemma normalizeFuel_fixed {b : ℚ} (h1 : 70 ≤ b) (h2 : b ≤ 210) (n : Nat) :
    normalizeFuel n b = some b := by
  unfold normalizeFuel
  rw [halveLoop_of_le h2 n]
  simp [doubleLoop_of_ge h1 n]

lemma halveLoop_mono : ∀ {n m : Nat} {b r : ℚ}, n ≤ m →
    halveLoop n b = some r → halveLoop m b = some r := by
  intro n
  induction n with
  | zero =>
    intro m b r _ h
    simp only [halveLoop] at h
    by_cases h1 : 210 < b
    · rw [if_pos h1] at h
      exact absurd h (by simp)
    · rw [if_neg h1] at h
      obtain rfl := Option.some_inj.mp h
      exact halveLoop_of_le (not_lt.1 h1) m
  | succ n ih =>
    intro m b r hnm h
    simp only [halveLoop] at h
    by_cases h1 : 210 < b
    · rw [if_pos h1] at h
      obtain ⟨m', rfl⟩ : ∃ m', m = m' + 1 := ⟨m - 1, by omega⟩
      simp only [halveLoop]
      rw [if_pos h1]
      exact ih (by omega) h
    · rw [if_neg h1] at h
      obtain rfl := Option.some_inj.mp h
      exact halveLoop_of_le (not_lt.1 h1) m

lemma doubleLoop_mono : ∀ {n m : Nat} {b r : ℚ}, n ≤ m →
    doubleLoop n b = some r → doubleLoop m b = some r := by
  intro n
  induction n with
  | zero =>
    intro m b r _ h
    simp only [doubleLoop] at h
    by_cases h1 : b < 70
    · rw [if_pos h1] at h
      exact absurd h (by simp)
    · rw [if_neg h1] at h
      obtain rfl := Option.some_inj.mp h
      exact doubleLoop_of_ge (not_lt.1 h1) m
  | succ n ih =>
    intro m b r hnm h
    simp only [doubleLoop] at h
    by_cases h1 : b < 70
    · rw [if_pos h1] at h
      obtain ⟨m', rfl⟩ : ∃ m', m = m' + 1 := ⟨m - 1, by omega⟩
      simp only [doubleLoop]
      rw [if_pos h1]
      exact ih (by omega) h
    · rw [if_neg h1] at h
      obtain rfl := Option.some_inj.mp h
      exact doubleLoop_of_ge (not_lt.1 h1) m

/-- The halving loop terminates on positives, given enough fuel. -/
lemma halveLoop_total : ∀ (k : Nat) (b : ℚ), 0 < b → b ≤ 210 * 2 ^ k →
    ∃ r, halveLoop k b = some r ∧ 0 < r ∧ r ≤ 210 := by
  intro k
  induction k with
  | zero =>
    intro b hb h
    rw [pow_zero, mul_one] at h
    exact ⟨b, halveLoop_of_le h 0, hb, h⟩
  | succ k ih =>
    intro b hb h
    by_cases h1 : 210 < b
    · have hh : b / 2 ≤ 210 * 2 ^ k := by
        rw [pow_succ] at h
        linarith
      obtain ⟨r, hr, hr0, hr210⟩ := ih (b / 2) (by linarith) hh
      refine ⟨r, ?_, hr0, hr210⟩
      simp only [halveLoop]
      rw [if_pos h1]
      exact hr
    · exact ⟨b, halveLoop_of_le (not_lt.1 h1) _, hb, not_lt.1 h1⟩

/-- The doubling loop terminates on positives bounded above, given enough
fuel. -/
lemma doubleLoop_total : ∀ (k : Nat) (b : ℚ), 0 < b → b ≤ 210 →
    70 ≤ b * 2 ^ k → ∃ r, doubleLoop k b = some r ∧ 70 ≤ r ∧ r ≤ 210 := by
  intro k
  induction k with
  | zero =>
    intro b hb h210 h
    rw [pow_zero, mul_one] at h
    exact ⟨b, doubleLoop_of_ge h 0, h, h210⟩
  | succ k ih =>
    intro b hb h210 h
    by_cases h1 : b < 70
    · have hh : 70 ≤ b * 2 * 2 ^ k := by
        rw [pow_succ] at h
        linarith [pow_pos (by norm_num : (0:ℚ) < 2) k]
      obtain ⟨r, hr, hr70, hr210⟩ := ih (b * 2) (by linarith) (by linarith) hh
      refine ⟨r, ?_, hr70, hr210⟩
      simp only [doubleLoop]
      rw [if_pos h1]
      exact hr
    · exact ⟨b, doubleLoop_of_ge (not_lt.1 h1) _, not_lt.1 h1, h210⟩

/-- Enough fuel exists for the halving loop. -/
lemma exists_halve_fuel (b : ℚ) : ∃ k : Nat, b ≤ 210 * 2 ^ k := by
  obtain ⟨k, hk⟩ := pow_unbounded_of_one_lt b (by norm_num : (1:ℚ) < 2)
  have h2 : (0:ℚ) < 2 ^ k := pow_pos (by norm_num) k
  exact ⟨k, by linarith⟩

/-- Enough fuel exists for the doubling loop on a positive start. -/
lemma exists_double_fuel {b : ℚ} (hb : 0 < b) : ∃ k : Nat, 70 ≤ b * 2 ^ k := by
  obtain ⟨k, hk⟩ := pow_unbounded_of_one_lt (70 / b) (by norm_num : (1:ℚ) < 2)
  refine ⟨k, ?_⟩
  rw [div_lt_iff₀ hb] at hk
  nlinarith [pow_pos (by norm_num : (0:ℚ) < 2) k]

/-! ### Facts about rounding to one decimal -/

lemma roundHalfEven_bounds (x : ℚ) :
    x - 1 / 2 ≤ (roundHalfEven x : ℚ) ∧ (roundHalfEven x : ℚ) ≤ x + 1 / 2 := by
  have h1 := Int.floor_le x
  have h2 := Int.lt_floor_add_one x
  unfold roundHalfEven
  split_ifs with ha hb hc <;> constructor <;> push_cast <;> linarith

lemma int_le_of_lt_half {m n : ℤ} (h : (m : ℚ) - 1 / 2 ≤ (n : ℚ)) : m ≤ n := by
  by_contra hn
  push_neg at hn
  have h1 : n ≤ m - 1 := by omega
  have h2 : (n : ℚ) ≤ (m : ℚ) - 1 := by exact_mod_cast h1
  linarith

lemma int_ge_of_gt_half {m n : ℤ} (h : (n : ℚ) ≤ (m : ℚ) + 1 / 2) : n ≤ m := by
  by_contra hn
  push_neg at hn
  have h1 : m + 1 ≤ n := by omega
  have h2 : (m : ℚ) + 1 ≤ (n : ℚ) := by exact_mod_cast h1
  linarith

/-- Rounding to one decimal cannot cross an integer multiple of `1/10` from
above: if `m ≤ x` (with `m` an integer) then `m ≤ round1 x`. -/
lemma round1_lower (m : ℤ) (x : ℚ) (h : (m : ℚ) ≤ x) : (m : ℚ) ≤ round1 x := by
  have hb := (roundHalfEven_bounds (x * 10)).1
  have hint : m * 10 ≤ roundHalfEven (x * 10) := by
    apply int_le_of_lt_half
    push_cast
    linarith
  have hq : ((m * 10 : ℤ) : ℚ) ≤ (roundHalfEven (x * 10) : ℚ) := by
    exact_mod_cast hint
  push_cast at hq
  unfold round1
  linarith

/-- Rounding to one decimal cannot cross an integer multiple of `1/10` from
below: if `x ≤ m` (with `m` an integer) then `round1 x ≤ m`. -/
lemma round1_upper (m : ℤ) (x : ℚ) (h : x ≤ (m : ℚ)) : round1 x ≤ (m : ℚ) := by
  have hb := (roundHalfEven_bounds (x * 10)).2
  have hint : roundHalfEven (x * 10) ≤ m * 10 := by
    apply int_ge_of_gt_half
    push_cast
    linarith
  have hq : ((roundHalfEven (x * 10) : ℤ) : ℚ) ≤ ((m * 10 : ℤ) : ℚ) := by
    exact_mod_cast hint
  push_cast at hq
  unfold round1
  linarith

/-- Integers are fixed points of rounding to one decimal. -/
lemma round1_intCast (m : ℤ) : round1 (m : ℚ) = (m : ℚ) :=
  le_antisymm (round1_upper m _ le_rfl) (round1_lower m _ le_rfl)

/-- Rounding to one decimal keeps values inside `[70, 210]`. -/
lemma round1_range {x : ℚ} (h1 : 70 ≤ x) (h2 : x ≤ 210) :
    70 ≤ round1 x ∧ round1 x ≤ 210 := by
  constructor
  · have := round1_lower 70 x (by exact_mod_cast h1)
    exact_mod_cast this
  · have := round1_upper 210 x (by exact_mod_cast h2)
    exact_mod_cast this

/-! ### Facts about the median -/

lemma getD_mem : ∀ (l : List ℚ) (i : Nat), i < l.length → ∀ d : ℚ,
    l.getD i d ∈ l
  | a :: t, 0, _, d => by simp
  | a :: t, i + 1, h, d => by
    simp only [List.getD_cons_succ]
    exact List.mem_cons_of_mem _ (getD_mem t i (by simpa using h) d)

/-- The median of a nonempty list with all elements in `[lo, hi]` lies in
`[lo, hi]`. -/
lemma median_bounds {l : List ℚ} {lo hi : ℚ} (hne : l ≠ [])
    (h : ∀ x ∈ l, lo ≤ x ∧ x ≤ hi) : lo ≤ median l ∧ median l ≤ hi := by
  simp only [median]
  have hperm : List.Perm (List.insertionSort (· ≤ ·) l) l :=
    List.perm_insertionSort _ l
  have hlen : (List.insertionSort (· ≤ ·) l).length = l.length := hperm.length_eq
  have hmem : ∀ x ∈ List.insertionSort (· ≤ ·) l, lo ≤ x ∧ x ≤ hi :=
    fun x hx => h x (hperm.mem_iff.mp hx)
  have hn : l.length ≠ 0 := fun h0 => hne (List.length_eq_zero.mp h0)
  split_ifs with h0 hodd
  · exact absurd h0 hn
  · have hidx : l.length / 2 < (List.insertionSort (· ≤ ·) l).length := by
      rw [hlen]
      exact Nat.div_lt_self (Nat.pos_of_ne_zero hn) (by norm_num)
    exact hmem _ (getD_mem _ _ hidx 0)
  · have h2 : 2 ≤ l.length := by omega
    have hidx1 : l.length / 2 - 1 < (List.insertionSort (· ≤ ·) l).length := by
      rw [hlen]
      omega
    have hidx2 : l.length / 2 < (List.insertionSort (· ≤ ·) l).length := by
      rw [hlen]
      exact Nat.div_lt_self (Nat.pos_of_ne_zero hn) (by norm_num)
    have hm1 := hmem _ (getD_mem _ _ hidx1 0)
    have hm2 := hmem _ (getD_mem _ _ hidx2 0)
    constructor <;> [linarith [hm1.1, hm2.1]; linarith [hm1.2, hm2.2]]

/-! ### Facts about normalizing a whole candidate list -/

lemma correctList_range : ∀ {fuel : Nat} {l l' : List ℚ},
    correctList fuel l = some l' → ∀ y ∈ l', 70 ≤ y ∧ y ≤ 210 := by
  intro fuel l
  induction l with
  | nil =>
    intro l' h y hy
    simp only [correctList, Option.some_inj] at h
    subst h
    exact absurd hy (by simp)
  | cons b rest ih =>
    intro l' h y hy
    simp only [correctList] at h
    cases hn : normalizeFuel fuel b with
    | none => rw [hn] at h; exact absurd h (by simp)
    | some r =>
      rw [hn] at h
      cases hr : correctList fuel rest with
      | none => rw [hr] at h; exact absurd h (by simp)
      | some rs =>
        rw [hr] at h
        simp only [Option.some_inj] at h
        subst h
        rcases List.mem_cons.mp hy with rfl | hmem
        · exact normalizeFuel_range hn
        · exact ih hr y hmem

lemma correctList_length : ∀ {fuel : Nat} {l l' : List ℚ},
    correctList fuel l = some l' → l'.length = l.length := by
  intro fuel l
  induction l with
  | nil =>
    intro l' h
    simp only [correctList, Option.some_inj] at h
    subst h
    rfl
  | cons b rest ih =>
    intro l' h
    simp only [correctList] at h
    cases hn : normalizeFuel fuel b with
    | none => rw [hn] at h; exact absurd h (by simp)
    | some r =>
      rw [hn] at h
      cases hr : correctList fuel rest with
      | none => rw [hr] at h; exact absurd h (by simp)
      | some rs =>
        rw [hr] at h
        simp only [Option.some_inj] at h
        subst h
        simp [ih hr]

/-! ### Characterization of the half-tempo disambiguation pass -/

/-- Full case analysis of `analyzeFrom` after the first normalization
succeeded: the disambiguation pass triggers exactly on a provisional median in
`[95, 120]`, re-runs the segment analysis biased at twice the median, and
overrides exactly when the doubled-median lies in `[130, 200]`. -/
lemma analyzeFrom_char (fuel : Nat) (candidates : List ℚ) (rerun : ℚ → List ℚ)
    (corrected : List ℚ) (hc : correctList fuel candidates = some corrected) :
    (¬(95 ≤ median corrected ∧ median corrected ≤ 120) →
      analyzeFrom fuel candidates rerun = some (round1 (median corrected))) ∧
    ((95 ≤ median corrected ∧ median corrected ≤ 120) →
      rerun (median corrected * 2) = [] →
      analyzeFrom fuel candidates rerun = some (round1 (median corrected))) ∧
    (∀ dc : List ℚ, (95 ≤ median corrected ∧ median corrected ≤ 120) →
      rerun (median corrected * 2) ≠ [] →
      correctList fuel (rerun (median corrected * 2)) = some dc →
      analyzeFrom fuel candidates rerun =
        some (round1 (if 130 ≤ median dc ∧ median dc ≤ 200 then median dc
          else median corrected))) := by
  refine ⟨?_, ?_, ?_⟩
  · intro hno
    simp only [analyzeFrom, hc]
    rw [if_neg hno]
  · intro hyes hempty
    simp only [analyzeFrom, hc]
    rw [if_pos hyes, if_pos hempty]
  · intro dc hyes hnonempty hdc
    simp only [analyzeFrom, hc]
    rw [if_pos hyes, if_neg hnonempty]
    simp only [hdc]
    split_ifs with h3 <;> rfl

/-- C1: the half-tempo disambiguation pass of `analyze_bpm` is applied only
when the provisional median lies in [95, 120]; it re-runs the segment
analysis with the starting-tempo bias set to twice the provisional median,
normalizes and takes the median of the new candidates, and replaces the
provisional estimate with the doubled-median exactly when that doubled-median
lies in [130, 200]; in every other case the provisional estimate (rounded to
one decimal, as always) is returned unchanged. -/
theorem half_tempo_disambiguation_conditions (fuel : Nat)
    (candidates : List ℚ) (rerun : ℚ → List ℚ) (corrected : List ℚ)
    (hc : correctList fuel candidates = some corrected) :
    (¬(95 ≤ median corrected ∧ median corrected ≤ 120) →
      analyzeFrom fuel candidates rerun = some (round1 (median corrected))) ∧
    ((95 ≤ median corrected ∧ median corrected ≤ 120) →
      rerun (median corrected * 2) = [] →
      analyzeFrom fuel candidates rerun = some (round1 (median corrected))) ∧
    (∀ dc : List ℚ, (95 ≤ median corrected ∧ median corrected ≤ 120) →
      rerun (median corrected * 2) ≠ [] →
      correctList fuel (rerun (median corrected * 2)) = some dc →
      analyzeFrom fuel candidates rerun =
        some (round1 (if 130 ≤ median dc ∧ median dc ≤ 200 then median dc
          else median corrected))) :=
  analyzeFrom_char fuel candidates rerun corrected hc

/-- Witness for C1 at a concrete input: candidates `[100]` give provisional
median 100 (inside the trigger band), the re-run yields `[150]`, whose median
150 lies in the acceptance band, so the estimate becomes 150. -/
theorem half_tempo_disambiguation_conditions_witness :
    analyzeFrom 0 [(100 : ℚ)] (fun _ => [150]) = some 150 := by
  have h := (half_tempo_disambiguation_conditions 0 [(100 : ℚ)]
    (fun _ => [150]) [100] (by decide)).2.2 [150] (by decide) (by decide)
    (by decide)
  rw [h]
  have h1 : 130 ≤ median [(150 : ℚ)] ∧ median [(150 : ℚ)] ≤ 200 := by decide
  rw [if_pos h1]
  have h2 : median [(150 : ℚ)] = 150 := by decide
  rw [h2]
  have h3 : round1 (150 : ℚ) = 150 := by
    have h4 := round1_intCast 150
    push_cast at h4
    exact h4
  rw [h3]

/-- C2: the octave normalization is total and idempotent on positive
candidates: for every positive candidate there is enough fuel for both loops
to terminate, the result lies in `[70, 210]`, and normalizing the result
again (with any fuel at all) returns it unchanged. -/
theorem octave_normalization_total_and_idempotent (b : ℚ) (hb : 0 < b) :
    ∃ fuel r, normalizeFuel fuel b = some r ∧ 70 ≤ r ∧ r ≤ 210 ∧
      ∀ fuel2, normalizeFuel fuel2 r = some r := by
  obtain ⟨k1, hk1⟩ := exists_halve_fuel b
  obtain ⟨r1, hr1, hr1pos, hr1le⟩ := halveLoop_total k1 b hb hk1
  obtain ⟨k2, hk2⟩ := exists_double_fuel hr1pos
  obtain ⟨r, hr, hr70, hr210⟩ := doubleLoop_total k2 r1 hr1pos hr1le hk2
  refine ⟨k1 + k2, r, ?_, hr70, hr210,
    fun fuel2 => normalizeFuel_fixed hr70 hr210 fuel2⟩
  unfold normalizeFuel
  rw [halveLoop_mono (by omega) hr1]
  simp only [Option.some_bind]
  exact doubleLoop_mono (by omega) hr

/-- Witness for C2 at the concrete positive candidate 3. -/
theorem octave_normalization_total_and_idempotent_witness :
    (0 : ℚ) < 3 ∧ ∃ fuel r, normalizeFuel fuel 3 = some r ∧ 70 ≤ r ∧
      r ≤ 210 ∧ ∀ fuel2, normalizeFuel fuel2 r = some r :=
  ⟨by norm_num, octave_normalization_total_and_idempotent 3 (by norm_num)⟩

/-- C10: the octave-normalization loop diverges on every non-positive
candidate — no amount of fuel makes it return — so positivity is a necessary
precondition for the normalization (hence the estimator) to be total. -/
theorem normalization_diverges_on_nonpositive {b : ℚ} (hb : b ≤ 0) :
    ∀ fuel, normalizeFuel fuel b = none := by
  have hdouble : ∀ (n : Nat) {c : ℚ}, c ≤ 0 → doubleLoop n c = none := by
    intro n
    induction n with
    | zero =>
      intro c h
      simp only [doubleLoop]
      rw [if_pos (by linarith : c < 70)]
    | succ n ih =>
      intro c h
      simp only [doubleLoop]
      rw [if_pos (by linarith : c < 70)]
      exact ih (by linarith)
  intro fuel
  unfold normalizeFuel
  rw [halveLoop_of_le (by linarith) fuel]
  simp only [Option.some_bind]
  exact hdouble fuel hb

/-- Witness for C10 at the concrete non-positive candidate 0 with fuel 7. -/
theorem normalization_diverges_on_nonpositive_witness :
    (0 : ℚ) ≤ 0 ∧ normalizeFuel 7 0 = none :=
  ⟨le_refl 0, normalization_diverges_on_nonpositive (le_refl 0) 7⟩

/-- C8: whenever the tempo estimator returns an estimate, the returned value
lies in `[70, 210]`: the provisional estimate is a median of normalized
candidates, the disambiguation replacement is constrained to `[130, 200]`,
and rounding to one decimal keeps the value in the range. -/
theorem estimate_within_octave_band (fuel : Nat) (candidates : List ℚ)
    (rerun : ℚ → List ℚ) (r : ℚ) (hne : candidates ≠ [])
    (h : analyzeFrom fuel candidates rerun = some r) : 70 ≤ r ∧ r ≤ 210 := by
  cases hc : correctList fuel candidates with
  | none =>
    simp only [analyzeFrom, hc] at h
    exact absurd h (by simp)
  | some corrected =>
    simp only [analyzeFrom, hc] at h
    have hball := correctList_range hc
    have hlen := correctList_length hc
    have hcne : corrected ≠ [] := by
      intro h0
      apply hne
      apply List.length_eq_zero.mp
      rw [← hlen, h0]
      rfl
    have hm := median_bounds hcne hball
    split_ifs at h with h1 h2
    · obtain rfl := Option.some_inj.mp h
      exact round1_range hm.1 hm.2
    · cases hdc : correctList fuel (rerun (median corrected * 2)) with
      | none =>
        simp only [hdc] at h
        exact absurd h (by simp)
      | some dc =>
        simp only [hdc] at h
        split_ifs at h with h3
        · obtain rfl := Option.some_inj.mp h
          exact round1_range (by linarith [h3.1]) (by linarith [h3.2])
        · obtain rfl := Option.some_inj.mp h
          exact round1_range hm.1 hm.2
    · obtain rfl := Option.some_inj.mp h
      exact round1_range hm.1 hm.2

/-- Witness for C8 at a concrete input: estimate 100 from candidates `[100]`
(the re-run yields no candidates), with the range bounds instantiated. -/
theorem estimate_within_octave_band_witness :
    ([(100 : ℚ)] ≠ [] ∧ analyzeFrom 0 [(100 : ℚ)] (fun _ => []) = some 100) ∧
    (70 ≤ (100 : ℚ) ∧ (100 : ℚ) ≤ 210) := by
  have h100 : round1 (100 : ℚ) = 100 := by
    have h4 := round1_intCast 100
    push_cast at h4
    exact h4
  have heq : analyzeFrom 0 [(100 : ℚ)] (fun _ => []) = some 100 := by
    have h := (analyzeFrom_char 0 [(100 : ℚ)] (fun _ => []) [100]
      (by decide)).2.1 (by decide) rfl
    have hm : median [(100 : ℚ)] = 100 := by decide
    rw [h, hm, h100]
  exact ⟨⟨by decide, heq⟩,
    estimate_within_octave_band 0 [(100 : ℚ)] (fun _ => []) 100 (by decide) heq⟩

/-- C9: whenever the half-tempo disambiguation pass replaces the provisional
estimate, the final estimate is strictly greater than the provisional one,
and exceeds the (rounded) provisional estimate by at least 10 BPM;
disambiguation never lowers the estimate. -/
theorem disambiguation_override_increases (fuel : Nat) (candidates : List ℚ)
    (rerun : ℚ → List ℚ) (corrected dc : List ℚ)
    (hc : correctList fuel candidates = some corrected)
    (hm : 95 ≤ median corrected ∧ median corrected ≤ 120)
    (hne : rerun (median corrected * 2) ≠ [])
    (hdc : correctList fuel (rerun (median corrected * 2)) = some dc)
    (hdm : 130 ≤ median dc ∧ median dc ≤ 200) :
    analyzeFrom fuel candidates rerun = some (round1 (median dc)) ∧
    round1 (median corrected) + 10 ≤ round1 (median dc) ∧
    median corrected < round1 (median dc) := by
  have h := (analyzeFrom_char fuel candidates rerun corrected hc).2.2 dc hm
    hne hdc
  rw [if_pos hdm] at h
  have hu := round1_upper 120 (median corrected) (by exact_mod_cast hm.2)
  have hl := round1_lower 130 (median dc) (by exact_mod_cast hdm.1)
  push_cast at hu hl
  exact ⟨h, by linarith, by linarith⟩

/-- Witness for C9 at a concrete input: provisional median 100, doubled-median
re-estimate 150 — the override is applied and increases the estimate. -/
theorem disambiguation_override_increases_witness :
    analyzeFrom 0 [(100 : ℚ)] (fun _ => [150]) =
      some (round1 (median [(150 : ℚ)])) ∧
    round1 (median [(100 : ℚ)]) + 10 ≤ round1 (median [(150 : ℚ)]) ∧
    median [(100 : ℚ)] < round1 (median [(150 : ℚ)]) :=
  disambiguation_override_increases 0 [(100 : ℚ)] (fun _ => [150]) [100] [150]
    (by decide) (by decide) (by decide) (by decide) (by decide)

/-! ### C3: the band classifier -/

/-- C3: `classify_bpm` is total and returns exactly one of the three bands
(BLUE/slow iff `bpm < 100`, GREEN/medium iff `100 ≤ bpm ≤ 140`, RED/fast iff
`bpm > 140`), identically in both variants; both boundary values 100 and 140
resolve to the medium band. -/
theorem classify_bpm_bands :
    (∀ b : ℚ,
      (BPM.classify_bpm b = Color.BLUE ↔ b < 100) ∧
      (BPM.classify_bpm b = Color.GREEN ↔ 100 ≤ b ∧ b ≤ 140) ∧
      (BPM.classify_bpm b = Color.RED ↔ 140 < b) ∧
      Spotify.classify_bpm b = BPM.classify_bpm b) ∧
    BPM.classify_bpm 100 = Color.GREEN ∧ BPM.classify_bpm 140 = Color.GREEN ∧
    Spotify.classify_bpm 100 = Color.GREEN ∧
    Spotify.classify_bpm 140 = Color.GREEN := by
  constructor
  · intro b
    unfold BPM.classify_bpm Spotify.classify_bpm BPM_SLOW_MAX BPM_MED_MAX
    split_ifs with h1 h2
    · exact ⟨⟨fun _ => h1, fun _ => rfl⟩,
        ⟨fun hh => hh.elim, fun hh => absurd h1 (not_lt.2 hh.1)⟩,
        ⟨fun hh => hh.elim, fun hh => absurd h1 (by linarith)⟩,
        rfl⟩
    · exact ⟨⟨fun hh => hh.elim, fun hh => absurd hh h1⟩,
        ⟨fun _ => ⟨not_lt.1 h1, h2⟩, fun _ => rfl⟩,
        ⟨fun hh => hh.elim, fun hh => absurd h2 (not_le.2 hh)⟩,
        rfl⟩
    · exact ⟨⟨fun hh => hh.elim, fun hh => absurd hh h1⟩,
        ⟨fun hh => hh.elim, fun hh => absurd hh.2 h2⟩,
        ⟨fun _ => not_le.1 h2, fun _ => rfl⟩,
        rfl⟩
  · exact ⟨by decide, by decide, by decide, by decide⟩

/-! ### Run-controller invariants -/

/-- Every bucket's length is bounded by the capacity. -/
def bucketsLe (cap : Nat) (st : Buckets ε) : Prop :=
  st.blue.length ≤ cap ∧ st.green.length ≤ cap ∧ st.red.length ≤ cap

instance (cap : Nat) (st : Buckets ε) : Decidable (bucketsLe cap st) := by
  unfold bucketsLe
  exact inferInstance

/-- `st2` extends `st` by appending only: each bucket of `st` is an initial
segment of the corresponding bucket of `st2` (nothing removed or
reordered). -/
def appendOnly (st st2 : Buckets ε) : Prop :=
  (∃ t, st2.blue = st.blue ++ t) ∧ (∃ t, st2.green = st.green ++ t) ∧
  (∃ t, st2.red = st.red ++ t)

lemma appendOnly_refl (st : Buckets ε) : appendOnly st st :=
  ⟨⟨[], by simp⟩, ⟨[], by simp⟩, ⟨[], by simp⟩⟩

lemma appendOnly_trans {s1 s2 s3 : Buckets ε} (h : appendOnly s1 s2)
    (h2 : appendOnly s2 s3) : appendOnly s1 s3 := by
  obtain ⟨⟨t1, e1⟩, ⟨t2, e2⟩, ⟨t3, e3⟩⟩ := h
  obtain ⟨⟨u1, f1⟩, ⟨u2, f2⟩, ⟨u3, f3⟩⟩ := h2
  refine ⟨⟨t1 ++ u1, ?_⟩, ⟨t2 ++ u2, ?_⟩, ⟨t3 ++ u3, ?_⟩⟩ <;>
    simp [f1, f2, f3, e1, e2, e3]

lemma appendOnly_appendEntry (st : Buckets ε) (c : Color) (e : ε) :
    appendOnly st (appendEntry st c e) := by
  cases c
  · exact ⟨⟨[e], rfl⟩, ⟨[], by simp [appendEntry]⟩, ⟨[], by simp [appendEntry]⟩⟩
  · exact ⟨⟨[], by simp [appendEntry]⟩, ⟨[e], rfl⟩, ⟨[], by simp [appendEntry]⟩⟩
  · exact ⟨⟨[], by simp [appendEntry]⟩, ⟨[], by simp [appendEntry]⟩, ⟨[e], rfl⟩⟩

lemma bucketsLe_appendEntry {cap : Nat} {st : Buckets ε} {c : Color} {e : ε}
    (h : bucketsLe cap st) (hlt : (bucketGet st c).length < cap) :
    bucketsLe cap (appendEntry st c e) := by
  obtain ⟨h1, h2, h3⟩ := h
  cases c <;>
    simp only [appendEntry, bucketGet, bucketsLe, List.length_append,
      List.length_cons, List.length_nil] at * <;>
    omega

/-- Capacity bound and append-only behaviour of the download-variant run. -/
lemma runFrom_invariant {A : Type} (cap : Nat) (dl : Row → Option A)
    (an : A → Option ℚ) : ∀ (rows : List Row) (st : Buckets Entry),
    bucketsLe cap st →
    bucketsLe cap (BPM.runFrom cap dl an rows st).1 ∧
      appendOnly st (BPM.runFrom cap dl an rows st).1 := by
  intro rows
  induction rows with
  | nil =>
    intro st h
    simp only [BPM.runFrom]
    exact ⟨h, appendOnly_refl st⟩
  | cons r rest ih =>
    intro st h
    simp only [BPM.runFrom]
    split_ifs with h1 h2
    · exact ih st h
    · exact ⟨h, appendOnly_refl st⟩
    · cases hdl : dl r with
      | none =>
        simp only [hdl]
        exact ih st h
      | some audio =>
        simp only [hdl]
        cases han : an audio with
        | none =>
          simp only [han]
          exact ih st h
        | some bpm =>
          simp only [han]
          split_ifs with hfull
          · exact ih st h
          · have hst2 := bucketsLe_appendEntry (e := BPM.mkEntry r bpm) h
              (not_le.1 hfull)
            obtain ⟨ha, hb⟩ := ih _ hst2
            exact ⟨ha, appendOnly_trans (appendOnly_appendEntry st _ _) hb⟩

/-- Capacity bound and append-only behaviour of the metadata-API-variant
run. -/
lemma runSpot_invariant (cap : Nat) (clean : String → String)
    (search : String → Option Track) (features : Track → Option ℚ) :
    ∀ (rows : List Row) (st : Buckets SpotEntry),
    bucketsLe cap st →
    bucketsLe cap (Spotify.runSpot cap clean search features rows st).1 ∧
      appendOnly st (Spotify.runSpot cap clean search features rows st).1 := by
  intro rows
  induction rows with
  | nil =>
    intro st h
    simp only [Spotify.runSpot]
    exact ⟨h, appendOnly_refl st⟩
  | cons r rest ih =>
    intro st h
    simp only [Spotify.runSpot]
    split_ifs with h1 h2
    · exact ⟨h, appendOnly_refl st⟩
    · exact ih st h
    · cases hse : search (clean (pyStrip r.title)) with
      | none =>
        simp only [hse]
        exact ih st h
      | some track =>
        simp only [hse]
        cases hfe : features track with
        | none =>
          simp only [hfe]
          exact ih st h
        | some tempo =>
          simp only [hfe]
          split_ifs with hfull
          · exact ih st h
          · have hst2 := bucketsLe_appendEntry
              (e := Spotify.mkEntry r track (round1 tempo)) h (not_le.1 hfull)
            obtain ⟨ha, hb⟩ := ih _ hst2
            exact ⟨ha, appendOnly_trans (appendOnly_appendEntry st _ _) hb⟩

/-- C4: after processing any descriptor sequence from a state within capacity
(in particular from the empty initial state), every bucket satisfies
`len(entries) ≤ capacity`, entries are only appended (each starting bucket is
an initial segment of the final one — never removed or reordered), and the
total number of accepted entries never exceeds `3 * capacity`; this holds for
both the download variant and the metadata-API variant. -/
theorem bucket_capacity_invariants {A : Type} (cap : Nat) (dl : Row → Option A)
    (an : A → Option ℚ) (clean : String → String)
    (search : String → Option Track) (features : Track → Option ℚ)
    (rows : List Row) (st : Buckets Entry) (stS : Buckets SpotEntry)
    (h : bucketsLe cap st) (hS : bucketsLe cap stS) :
    (bucketsLe cap (BPM.runFrom cap dl an rows st).1 ∧
      appendOnly st (BPM.runFrom cap dl an rows st).1 ∧
      (BPM.runFrom cap dl an rows st).1.blue.length +
        (BPM.runFrom cap dl an rows st).1.green.length +
        (BPM.runFrom cap dl an rows st).1.red.length ≤ 3 * cap) ∧
    (bucketsLe cap (Spotify.runSpot cap clean search features rows stS).1 ∧
      appendOnly stS (Spotify.runSpot cap clean search features rows stS).1 ∧
      (Spotify.runSpot cap clean search features rows stS).1.blue.length +
        (Spotify.runSpot cap clean search features rows stS).1.green.length +
        (Spotify.runSpot cap clean search features rows stS).1.red.length ≤
          3 * cap) := by
  obtain ⟨ha, hb⟩ := runFrom_invariant cap dl an rows st h
  obtain ⟨hc, hd⟩ := runSpot_invariant cap clean search features rows stS hS
  obtain ⟨x1, x2, x3⟩ := ha
  obtain ⟨y1, y2, y3⟩ := hc
  exact ⟨⟨⟨x1, x2, x3⟩, hb, by omega⟩, ⟨⟨y1, y2, y3⟩, hd, by omega⟩⟩

/-- Witness for C4 at a concrete configuration (capacity 1, empty initial
buckets, empty descriptor list, failing oracles). -/
theorem bucket_capacity_invariants_witness :
    (bucketsLe 1 (BPM.runFrom (A := ℚ) 1 (fun _ => none) (fun q => some q) []
        ⟨[], [], []⟩).1 ∧
      appendOnly (⟨[], [], []⟩ : Buckets Entry)
        (BPM.runFrom (A := ℚ) 1 (fun _ => none) (fun q => some q) []
          ⟨[], [], []⟩).1 ∧
      (BPM.runFrom (A := ℚ) 1 (fun _ => none) (fun q => some q) []
          ⟨[], [], []⟩).1.blue.length +
        (BPM.runFrom (A := ℚ) 1 (fun _ => none) (fun q => some q) []
          ⟨[], [], []⟩).1.green.length +
        (BPM.runFrom (A := ℚ) 1 (fun _ => none) (fun q => some q) []
          ⟨[], [], []⟩).1.red.length ≤ 3 * 1) ∧
    (bucketsLe 1 (Spotify.runSpot 1 (fun s => s) (fun _ => none)
        (fun _ => none) [] ⟨[], [], []⟩).1 ∧
      appendOnly (⟨[], [], []⟩ : Buckets SpotEntry)
        (Spotify.runSpot 1 (fun s => s) (fun _ => none) (fun _ => none) []
          ⟨[], [], []⟩).1 ∧
      (Spotify.runSpot 1 (fun s => s) (fun _ => none) (fun _ => none) []
          ⟨[], [], []⟩).1.blue.length +
        (Spotify.runSpot 1 (fun s => s) (fun _ => none) (fun _ => none) []
          ⟨[], [], []⟩).1.green.length +
        (Spotify.runSpot 1 (fun s => s) (fun _ => none) (fun _ => none) []
          ⟨[], [], []⟩).1.red.length ≤ 3 * 1) :=
  bucket_capacity_invariants 1 (fun _ => (none : Option ℚ)) (fun q => some q)
    (fun s => s) (fun _ => none) (fun _ => none) [] ⟨[], [], []⟩ ⟨[], [], []⟩
    (by decide) (by decide)

/-- From a full state, the download-variant run touches nothing and makes no
external call. -/
lemma runFrom_halts {A : Type} {cap : Nat} {dl : Row → Option A}
    {an : A → Option ℚ} {st : Buckets Entry} (h : allBucketsFull cap st) :
    ∀ rows, BPM.runFrom cap dl an rows st = (st, []) := by
  intro rows
  induction rows with
  | nil => simp only [BPM.runFrom]
  | cons r rest ih =>
    simp only [BPM.runFrom]
    split_ifs with h1
    · exact ih
    · rfl

/-- From a full state, the metadata-API-variant run touches nothing and makes
no external call. -/
lemma runSpot_halts {cap : Nat} {clean : String → String}
    {search : String → Option Track} {features : Track → Option ℚ}
    {st : Buckets SpotEntry} (h : allBucketsFull cap st) :
    ∀ rows, Spotify.runSpot cap clean search features rows st = (st, []) := by
  intro rows
  cases rows with
  | nil => simp only [Spotify.runSpot]
  | cons r rest =>
    simp only [Spotify.runSpot]
    rw [if_pos h]

/-- C5: once all three buckets have reached capacity, processing halts: from
any all-full state, neither variant acquires (downloads / searches), analyzes
or appends anything for the remaining descriptors — the bucket state is
returned unchanged and the trace of external calls is empty. -/
theorem full_buckets_halt_processing {A : Type} (cap : Nat)
    (dl : Row → Option A) (an : A → Option ℚ) (clean : String → String)
    (search : String → Option Track) (features : Track → Option ℚ)
    (rows : List Row) (st : Buckets Entry) (stS : Buckets SpotEntry)
    (h : allBucketsFull cap st) (hS : allBucketsFull cap stS) :
    BPM.runFrom cap dl an rows st = (st, []) ∧
    Spotify.runSpot cap clean search features rows stS = (stS, []) :=
  ⟨runFrom_halts h rows, runSpot_halts hS rows⟩

/-- Witness for C5 at a concrete configuration: capacity 0, so the empty
buckets are full, and a nonempty descriptor list produces no call at all. -/
theorem full_buckets_halt_processing_witness :
    BPM.runFrom (A := ℚ) 0 (fun _ => none) (fun q => some q)
        [⟨"1", "b", "t", "a", "s"⟩] ⟨[], [], []⟩ = (⟨[], [], []⟩, []) ∧
    Spotify.runSpot 0 (fun s => s) (fun _ => none) (fun _ => none)
        [⟨"1", "b", "t", "a", "s"⟩] ⟨[], [], []⟩ = (⟨[], [], []⟩, []) :=
  full_buckets_halt_processing 0 (fun _ => (none : Option ℚ))
    (fun q => some q) (fun s => s) (fun _ => none) (fun _ => none)
    [⟨"1", "b", "t", "a", "s"⟩] ⟨[], [], []⟩ ⟨[], [], []⟩
    (by decide) (by decide)

/-- C6: a descriptor whose identifier strips to the empty string is skipped
entirely — processing it is the same as processing the remaining descriptors:
no acquisition, no analysis, no append happens for it, in both the download
variant (empty `bv`) and the metadata-API variant (empty title). -/
theorem empty_identifier_skipped {A : Type} (cap : Nat) (dl : Row → Option A)
    (an : A → Option ℚ) (clean : String → String)
    (search : String → Option Track) (features : Track → Option ℚ)
    (r1 r2 : Row) (rest1 rest2 : List Row) (st : Buckets Entry)
    (stS : Buckets SpotEntry) (hbv : pyStrip r1.bv = "")
    (htitle : pyStrip r2.title = "") :
    BPM.runFrom cap dl an (r1 :: rest1) st = BPM.runFrom cap dl an rest1 st ∧
    Spotify.runSpot cap clean search features (r2 :: rest2) stS =
      Spotify.runSpot cap clean search features rest2 stS := by
  constructor
  · simp only [BPM.runFrom]
    rw [if_pos hbv]
  · by_cases hfull : allBucketsFull cap stS
    · rw [runSpot_halts hfull (r2 :: rest2), runSpot_halts hfull rest2]
    · simp only [Spotify.runSpot]
      rw [if_neg hfull, if_pos htitle]

/-- Witness for C6 at concrete descriptors with empty (or whitespace-only)
identifiers. -/
theorem empty_identifier_skipped_witness :
    BPM.runFrom (A := ℚ) 1 (fun _ => none) (fun q => some q)
        [⟨"1", "", "t", "a", "s"⟩] ⟨[], [], []⟩ =
      BPM.runFrom (A := ℚ) 1 (fun _ => none) (fun q => some q) []
        ⟨[], [], []⟩ ∧
    Spotify.runSpot 1 (fun s => s) (fun _ => none) (fun _ => none)
        [⟨"2", "b", " ", "a", "s"⟩] ⟨[], [], []⟩ =
      Spotify.runSpot 1 (fun s => s) (fun _ => none) (fun _ => none) []
        ⟨[], [], []⟩ :=
  empty_identifier_skipped 1 (fun _ => (none : Option ℚ)) (fun q => some q)
    (fun s => s) (fun _ => none) (fun _ => none) ⟨"1", "", "t", "a", "s"⟩
    ⟨"2", "b", " ", "a", "s"⟩ [] [] ⟨[], [], []⟩ ⟨[], [], []⟩
    (by decide) (by decide)

/-- An acquisition failure (download returns nothing) only logs the download
call and moves on: state and remaining processing are those of the rest of
the list. -/
lemma runFrom_download_failure {A : Type} {cap : Nat} {dl : Row → Option A}
    {an : A → Option ℚ} {r : Row} {rest : List Row} {st : Buckets Entry}
    (hbv : pyStrip r.bv ≠ "") (hfull : ¬allBucketsFull cap st)
    (hdl : dl r = none) :
    BPM.runFrom cap dl an (r :: rest) st =
      ((BPM.runFrom cap dl an rest st).1,
        Event.download r :: (BPM.runFrom cap dl an rest st).2) := by
  simp only [BPM.runFrom]
  rw [if_neg hbv, if_neg hfull]
  simp only [hdl]

/-- An analysis failure (estimator returns nothing) only logs the download and
analysis calls and moves on. -/
lemma runFrom_analysis_failure {A : Type} {cap : Nat} {dl : Row → Option A}
    {an : A → Option ℚ} {r : Row} {rest : List Row} {st : Buckets Entry}
    {a : A} (hbv : pyStrip r.bv ≠ "") (hfull : ¬allBucketsFull cap st)
    (hdl : dl r = some a) (han : an a = none) :
    BPM.runFrom cap dl an (r :: rest) st =
      ((BPM.runFrom cap dl an rest st).1,
        Event.download r :: Event.analyze r ::
          (BPM.runFrom cap dl an rest st).2) := by
  simp only [BPM.runFrom]
  rw [if_neg hbv, if_neg hfull]
  simp only [hdl, han]

/-- C7: every per-track failure (acquisition failure or analysis failure)
causes the controller to advance to the next descriptor without appending an
entry and without aborting the run; in particular when acquisition fails for
descriptor #2 of 3, the output contains descriptors #1 and #3 only and the
run does not halt. -/
theorem per_track_failures_skip :
    (∀ (A : Type) (cap : Nat) (dl : Row → Option A) (an : A → Option ℚ)
        (r : Row) (rest : List Row) (st : Buckets Entry),
      pyStrip r.bv ≠ "" → ¬allBucketsFull cap st → dl r = none →
      BPM.runFrom cap dl an (r :: rest) st =
        ((BPM.runFrom cap dl an rest st).1,
          Event.download r :: (BPM.runFrom cap dl an rest st).2)) ∧
    (∀ (A : Type) (cap : Nat) (dl : Row → Option A) (an : A → Option ℚ)
        (r : Row) (rest : List Row) (st : Buckets Entry) (a : A),
      pyStrip r.bv ≠ "" → ¬allBucketsFull cap st → dl r = some a →
      an a = none →
      BPM.runFrom cap dl an (r :: rest) st =
        ((BPM.runFrom cap dl an rest st).1,
          Event.download r :: Event.analyze r ::
            (BPM.runFrom cap dl an rest st).2)) ∧
    BPM.runFrom (A := ℚ) 20
        (fun r => if r.bv = "bv2" then none
          else if r.bv = "bv1" then some 80 else some 160)
        (fun q => some q)
        [⟨"1", "bv1", "t1", "a1", "s1"⟩, ⟨"2", "bv2", "t2", "a2", "s2"⟩,
          ⟨"3", "bv3", "t3", "a3", "s3"⟩] ⟨[], [], []⟩ =
      (⟨[⟨"1", "bv1", "t1", "a1", "s1", 80⟩], [],
          [⟨"3", "bv3", "t3", "a3", "s3", 160⟩]⟩,
        [Event.download ⟨"1", "bv1", "t1", "a1", "s1"⟩,
          Event.analyze ⟨"1", "bv1", "t1", "a1", "s1"⟩,
          Event.append Color.BLUE ⟨"1", "bv1", "t1", "a1", "s1"⟩,
          Event.download ⟨"2", "bv2", "t2", "a2", "s2"⟩,
          Event.download ⟨"3", "bv3", "t3", "a3", "s3"⟩,
          Event.analyze ⟨"3", "bv3", "t3", "a3", "s3"⟩,
          Event.append Color.RED ⟨"3", "bv3", "t3", "a3", "s3"⟩]) := by
  refine ⟨?_, ?_, ?_⟩
  · intro A cap dl an r rest st hbv hfull hdl
    exact runFrom_download_failure hbv hfull hdl
  · intro A cap dl an r rest st a hbv hfull hdl han
    exact runFrom_analysis_failure hbv hfull hdl han
  · decide

/-- Witness for C7's failure-step components at a concrete input. -/
theorem per_track_failures_skip_witness :
    BPM.runFrom (A := ℚ) 20 (fun _ => none) (fun q => some q)
        [⟨"1", "bv1", "t1", "a1", "s1"⟩] ⟨[], [], []⟩ =
      ((BPM.runFrom (A := ℚ) 20 (fun _ => none) (fun q => some q) []
          ⟨[], [], []⟩).1,
        Event.download ⟨"1", "bv1", "t1", "a1", "s1"⟩ ::
          (BPM.runFrom (A := ℚ) 20 (fun _ => none) (fun q => some q) []
            ⟨[], [], []⟩).2) :=
  per_track_failures_skip.1 ℚ 20 (fun _ => none) (fun q => some q)
    ⟨"1", "bv1", "t1", "a1", "s1"⟩ [] ⟨[], [], []⟩ (by decide) (by decide) rfl
